import Mathlib

/-!
Verification of the AI-Study-Coach backend response pipeline.

This file gives a shallow embedding, in Lean 4, of the pure logic of
`src/backend/app.py` and `src/backend/main.py`:

* a `Json` value type standing for the Python values produced by `json.loads`
  (dicts are modelled as ordered association lists with unique keys, which is
  exactly the observable behaviour of Python dicts);
* the question normalizer (`transform_question`, `transform_ai_quiz_response`,
  `normalize_question_type` from `app.py`);
* the question-count distributor (the distribution block of
  `build_quiz_prompt` in `app.py`, lines 304-316);
* the JSON extraction heuristic (`extract_and_repair_json` from `app.py`),
  including a faithful model of the fence regular expression it applies first;
* a model of Python's `json.loads` (strict JSON with the `NaN`/`Infinity`
  extensions) used by both backends;
* the fallback extractor `extract_json_from_response` from `main.py`.

Theorems about the claims of the specification follow the definitions.
-/

set_option autoImplicit false

namespace AISC

/-- Model of a Python value produced by `json.loads` (plus the strings, booleans
and `None` that the backend manipulates directly).  Numbers keep their source
literal: no claim inspects numeric values, only their truthiness and string
form, which the literal determines. -/
inductive Json where
  | null : Json
  | bool (b : Bool) : Json
  | num (lit : String) : Json
  | str (s : String) : Json
  | arr (xs : List Json) : Json
  | obj (fields : List (String × Json)) : Json

/-- First value bound to key `k`, i.e. Python `d[k]` / `d.get(k)` on the dict
modelled by the association list. -/
def lookupKey : List (String × Json) → String → Option Json
  | [], _ => none
  | (k', v) :: fs, k => if k' = k then some v else lookupKey fs k

/-- Python `k in d`. -/
def hasKey (fs : List (String × Json)) (k : String) : Bool :=
  (lookupKey fs k).isSome

/-- Python `d[k] = v`: replace the value at the first occurrence of `k`,
keeping its position, or append a new binding at the end. -/
def setKey : List (String × Json) → String → Json → List (String × Json)
  | [], k, v => [(k, v)]
  | (k', v') :: fs, k, v =>
      if k' = k then (k, v) :: fs else (k', v') :: setKey fs k v

/-- Python `del d[k]`: remove the first binding of `k`. -/
def delKey : List (String × Json) → String → List (String × Json)
  | [], _ => []
  | (k', v') :: fs, k => if k' = k then fs else (k', v') :: delKey fs k

/-- Fields of an object value (`[]` on non-objects; used only to state
theorems about values that are known to be objects). -/
def objFields : Json → List (String × Json)
  | .obj fs => fs
  | _ => []

/-- Does the numeric literal denote zero?  (Zero mantissa; the exponent is
irrelevant.  `NaN`/`Infinity` have no digits and are not zero.) -/
def numIsZero (lit : String) : Bool :=
  let m := lit.toList.takeWhile (fun c => !(c == 'e' || c == 'E'))
  m.any (fun c => c.isDigit) && m.all (fun c => !(c.isDigit && c != '0'))

/-- Python `bool(v)` truthiness. -/
def pyBool : Json → Bool
  | .null => false
  | .bool b => b
  | .num lit => !(numIsZero lit)
  | .str s => !(s.isEmpty)
  | .arr xs => !(xs.isEmpty)
  | .obj fs => !(fs.isEmpty)

mutual

/-- Python `repr(v)` for the values of the model (string escaping inside
container reprs is not reproduced; only scalar reprs are ever inspected by
the backend). -/
def pyRepr : Json → String
  | .null => "None"
  | .bool true => "True"
  | .bool false => "False"
  | .num lit => lit
  | .str s => "'" ++ s ++ "'"
  | .arr xs => "[" ++ pyReprElems xs ++ "]"
  | .obj fs => "\x7b" ++ pyReprFields fs ++ "\x7d"

/-- Comma-separated reprs of list elements. -/
def pyReprElems : List Json → String
  | [] => ""
  | [x] => pyRepr x
  | x :: y :: xs => pyRepr x ++ ", " ++ pyReprElems (y :: xs)

/-- Comma-separated reprs of dict entries. -/
def pyReprFields : List (String × Json) → String
  | [] => ""
  | [(k, v)] => "'" ++ k ++ "': " ++ pyRepr v
  | (k, v) :: f :: fs => "'" ++ k ++ "': " ++ pyRepr v ++ ", " ++ pyReprFields (f :: fs)

end

/-- Python `str(v)`: identity on strings, `repr` otherwise. -/
def pyStr : Json → String
  | .str s => s
  | v => pyRepr v

/-- Python `s.lower()` (ASCII letters; the backend's type labels and answer
strings are ASCII). -/
def lowerStr (s : String) : String :=
  String.mk (s.toList.map Char.toLower)

/-- Does `small` occur at the head of `big`? -/
def startsWithL : List Char → List Char → Bool
  | [], _ => true
  | _ :: _, [] => false
  | a :: as, b :: bs => a == b && startsWithL as bs

/-- Does `needle` occur anywhere in `hay`? -/
def hasSubL (needle : List Char) : List Char → Bool
  | [] => startsWithL needle []
  | c :: cs => startsWithL needle (c :: cs) || hasSubL needle cs

/-- Python `needle in hay` on strings. -/
def hasSubstr (hay needle : String) : Bool :=
  hasSubL needle.toList hay.toList

/-- Embeds `normalize_question_type` (app.py lines 103-110) on string input:
lower-case the label, map recognized substrings to canonical labels in
priority order, and otherwise return the lower-cased label. -/
def normalize_question_type (q_type : String) : String :=
  let l := lowerStr q_type
  if hasSubstr l "mcq" || hasSubstr l "multiple" then "MCQ"
  else if hasSubstr l "true" || hasSubstr l "false" then "True/False"
  else if hasSubstr l "fill" then "Fill in Blank"
  else if hasSubstr l "short" || hasSubstr l "subjective" then "Short Answer"
  else l

/-- Embeds the non-string guard of `normalize_question_type` (app.py line
104): a non-string argument yields the string `MCQ`. -/
def normalize_question_type_json : Json → Json
  | .str s => .str (normalize_question_type s)
  | _ => .str "MCQ"

/-- Embeds the body of the option-fixing loop of `transform_question`
(app.py lines 93-98): a mapping containing `correct` and lacking `isCorrect`
gets `isCorrect = bool(correct)` appended and `correct` removed; everything
else is left untouched. -/
def fix_option (opt : Json) : Json :=
  match opt with
  | .obj ofs =>
      if hasKey ofs "correct" && !(hasKey ofs "isCorrect") then
        match lookupKey ofs "correct" with
        | some v => .obj (delKey (setKey ofs "isCorrect" (.bool (pyBool v))) "correct")
        | none => .obj ofs
      else .obj ofs
  | o => o

/-- Python `question.get('type') == 'True/False'`: an absent key or a
non-string value compares unequal to the string. -/
def typeIsTrueFalse (v : Option Json) : Bool :=
  match v with
  | some (.str s) => s == "True/False"
  | _ => false

/-- Embeds `transform_question` (app.py lines 76-100). -/
def transform_question (question : Json) : Json :=
  match question with
  | .obj fs0 =>
      let fs1 :=
        match lookupKey fs0 "type" with
        | some tv => setKey fs0 "type" (normalize_question_type_json tv)
        | none => fs0
      let fs2 :=
        if typeIsTrueFalse (lookupKey fs1 "type") && !(hasKey fs1 "options") then
          let answer := (lookupKey fs1 "answer").getD (Json.str "")
          let is_true := lowerStr (pyStr answer) == "true"
          setKey fs1 "options" (Json.arr
            [Json.obj [("text", Json.str "True"), ("isCorrect", Json.bool is_true)],
             Json.obj [("text", Json.str "False"), ("isCorrect", Json.bool (!is_true))]])
        else fs1
      let fs3 :=
        match lookupKey fs2 "options" with
        | some (Json.arr opts) => setKey fs2 "options" (Json.arr (opts.map fix_option))
        | _ => fs2
      Json.obj fs3
  | q => q

/-- Embeds `transform_ai_quiz_response` (app.py lines 67-73). -/
def transform_ai_quiz_response (ai_response : Json) : Json :=
  match ai_response with
  | .obj fs =>
      match lookupKey fs "questions" with
      | some (Json.arr qs) => .obj (setKey fs "questions" (Json.arr (qs.map transform_question)))
      | _ => .obj fs
  | v => v

/-- Python `list(dict.fromkeys(xs))`: deduplicate keeping the first
occurrence of each element, preserving order. -/
def dedupFirst (seen : List String) : List String → List String
  | [] => []
  | x :: xs =>
      if seen.contains x then dedupFirst seen xs
      else x :: dedupFirst (x :: seen) xs

/-- Embeds the label normalization of `build_quiz_prompt` (app.py lines
304-307): normalize every label, deduplicate keeping first occurrences, and
fall back to the single label `MCQ` when the result is empty. -/
def final_types (question_types : List String) : List String :=
  let ts := dedupFirst [] (question_types.map normalize_question_type)
  if ts.isEmpty then ["MCQ"] else ts

/-- Embeds the distribution block of `build_quiz_prompt` (app.py lines
304-316): split `question_count` across the normalized deduplicated labels,
giving the first `question_count % n` labels one extra item. -/
def distribute (question_types : List String) (question_count : Nat) : List (String × Nat) :=
  let fts := final_types question_types
  let base := question_count / fts.length
  let remainder := question_count % fts.length
  fts.enum.map (fun p => (p.2, base + if p.1 < remainder then 1 else 0))

/-! ### Model of the fence regular expression of `extract_and_repair_json`

`app.py` line 41 first applies
`re.search(r'(three backticks)(?:json)?\s*(\x7b.*?\x7d|(three backticks)math.*?(three backticks))\s*(three backticks)', text, re.DOTALL)`
and, when it matches, replaces the text by the first capture group.  The
functions below reproduce `re.search` semantics for this one pattern:
leftmost starting position, the optional `json` preferred, greedy
whitespace runs tried longest first, the brace alternative tried before the
`math` alternative, and the lazy `.*?` bodies tried shortest first. -/

/-- Python `\s` (ASCII range; the backend only ever sees ASCII fences). -/
def isSpaceChar (c : Char) : Bool :=
  c == ' ' || c == '\t' || c == '\n' || c == '\r' || c == '\x0b' || c == '\x0c'

/-- Strip the literal `pre` from the head of `s`. -/
def stripPre : List Char → List Char → Option (List Char)
  | [], s => some s
  | _ :: _, [] => none
  | a :: as, b :: bs => if a == b then stripPre as bs else none

/-- All ways for a greedy `\s*` to leave a rest, longest whitespace run
first (the order a backtracking engine tries them in). -/
def wsDrops : List Char → List (List Char)
  | [] => [[]]
  | c :: cs => if isSpaceChar c then wsDrops cs ++ [c :: cs] else [c :: cs]

/-- First `some` among the results of `f` applied along a list. -/
def firstSome {α β : Type} (f : α → Option β) : List α → Option β
  | [] => none
  | x :: xs => match f x with
    | some r => some r
    | none => firstSome f xs

/-- Lazy `.*?` followed by the literal `closer`: the shortest body `mid`
such that `mid ++ closer ++ rest = s` and the continuation accepts `rest`. -/
def lazySplit (closer : List Char) (cont : List Char → Bool) :
    List Char → Option (List Char × List Char)
  | [] =>
      match stripPre closer [] with
      | some rest => if cont rest then some ([], rest) else none
      | none => none
  | c :: cs =>
      match stripPre closer (c :: cs) with
      | some rest =>
          if cont rest then some ([], rest)
          else (lazySplit closer cont cs).map (fun p => (c :: p.1, p.2))
      | none => (lazySplit closer cont cs).map (fun p => (c :: p.1, p.2))

/-- The three-backtick literal. -/
def ticks3 : List Char := ['`', '`', '`']

/-- Does the tail of the pattern (`\s*` then three backticks) match a
suffix of `s`? -/
def tailTicks (s : List Char) : Bool :=
  (wsDrops s).any (fun r => (stripPre ticks3 r).isSome)

/-- The second alternative of the capture group: `(three backticks)math.*?(three backticks)`. -/
def groupMath (s : List Char) : Option (List Char) :=
  match stripPre (ticks3 ++ ['m', 'a', 't', 'h']) s with
  | none => none
  | some t =>
      match lazySplit ticks3 tailTicks t with
      | some (mid, _) => some (ticks3 ++ ['m', 'a', 't', 'h'] ++ mid ++ ticks3)
      | none => none

/-- The capture group `(\x7b.*?\x7d|(three backticks)math.*?(three backticks))`, tried at `s`,
with the rest of the pattern required to match after it. -/
def groupAt (s : List Char) : Option (List Char) :=
  match s with
  | '\x7b' :: t =>
      match lazySplit ['\x7d'] tailTicks t with
      | some (mid, _) => some ('\x7b' :: (mid ++ ['\x7d']))
      | none => groupMath s
  | _ => groupMath s

/-- Try the whole fence pattern anchored at `s`; return the capture group. -/
def fenceAt (s : List Char) : Option (List Char) :=
  match stripPre ticks3 s with
  | none => none
  | some s1 =>
      let starts :=
        match stripPre ['j', 's', 'o', 'n'] s1 with
        | some s2 => [s2, s1]
        | none => [s1]
      firstSome (fun s2 => firstSome groupAt (wsDrops s2)) starts

/-- `re.search` for the fence pattern: leftmost start wins. -/
def fenceSearch : List Char → Option (List Char)
  | [] => none
  | c :: cs =>
      match fenceAt (c :: cs) with
      | some g => some g
      | none => fenceSearch cs

/-- The working text of `extract_and_repair_json`: the first capture group
of the fence pattern when it matches, the raw text otherwise (app.py lines
41-43). -/
def workingText (text : String) : String :=
  match fenceSearch text.toList with
  | some g => String.mk g
  | none => text

/-! ### The bracket heuristic of `extract_and_repair_json` -/

/-- Python `s.find(c)`: index of the first occurrence, or `-1`. -/
def findIdx : Char → List Char → Option Nat
  | _, [] => none
  | c, x :: xs => if x == c then some 0 else (findIdx c xs).map (· + 1)

/-- Python `s.rfind(c)`: index of the last occurrence, or `-1`. -/
def rfindIdx : Char → List Char → Option Nat
  | _, [] => none
  | c, x :: xs =>
      match rfindIdx c xs with
      | some n => some (n + 1)
      | none => if x == c then some 0 else none

/-- `find` with Python's `-1` sentinel. -/
def pyFind (c : Char) (cs : List Char) : Int :=
  match findIdx c cs with
  | some n => (n : Int)
  | none => -1

/-- `rfind` with Python's `-1` sentinel. -/
def pyRfind (c : Char) (cs : List Char) : Int :=
  match rfindIdx c cs with
  | some n => (n : Int)
  | none => -1

/-- Python `text[a:b]` for non-negative bounds. -/
def sliceNN (cs : List Char) (a b : Int) : List Char :=
  (cs.take b.toNat).drop a.toNat

/-- The start position chosen by app.py lines 45-52: the earlier of the
first `\x7b` and the first `[`, with `-1` when neither exists. -/
def startPos (cs : List Char) : Int :=
  let start_brace := pyFind '\x7b' cs
  let start_bracket := pyFind '[' cs
  if start_brace ≠ -1 ∧ (start_bracket = -1 ∨ start_brace < start_bracket) then start_brace
  else if start_bracket ≠ -1 then start_bracket
  else -1

/-- The end position chosen by app.py lines 57-59: the later of the last
`\x7d` and the last `]`, with `-1` when neither exists. -/
def endPos (cs : List Char) : Int :=
  max (pyRfind '\x7d' cs) (pyRfind ']' cs)

/-- Embeds `extract_and_repair_json` (app.py lines 40-64).  The two
`ValueError` messages of the source become the `Except.error` payloads. -/
def extract_and_repair_json (text : String) : Except String String :=
  let cs := (workingText text).toList
  if startPos cs = -1 then
    .error "Could not find a starting JSON brace or bracket."
  else if endPos cs = -1 then
    .error "Could not find a closing JSON brace or bracket."
  else
    .ok (String.mk (sliceNN cs (startPos cs) (endPos cs + 1)))

/-! ### Model of Python `json.loads`

Strict JSON as accepted by the default `json.loads`: the four JSON
whitespace characters, `null`/`true`/`false`, the `NaN`/`Infinity`/
`-Infinity` extensions, strings with the standard escapes and no raw
control characters, numbers without leading zeros, and objects/arrays with
no trailing commas.  Objects are built like Python dicts: a duplicate key
keeps its first position and its last value.  Recursion is bounded by a
fuel argument that the top entry point instantiates with more than the
input length, which bounds the decreasing chain of any parse. -/

/-- JSON whitespace. -/
def jsonWs (c : Char) : Bool :=
  c == ' ' || c == '\t' || c == '\n' || c == '\r'

/-- Drop leading JSON whitespace. -/
def skipWs : List Char → List Char
  | [] => []
  | c :: cs => if jsonWs c then skipWs cs else c :: cs

/-- Value of a hex digit. -/
def hexVal (c : Char) : Option Nat :=
  if c.isDigit then some (c.toNat - '0'.toNat)
  else if 'a' ≤ c ∧ c ≤ 'f' then some (c.toNat - 'a'.toNat + 10)
  else if 'A' ≤ c ∧ c ≤ 'F' then some (c.toNat - 'A'.toNat + 10)
  else none

/-- Body of a JSON string after the opening quote: the decoded characters
and the rest of the input after the closing quote. -/
def parseStrBody : List Char → Option (List Char × List Char)
  | [] => none
  | '"' :: rest => some ([], rest)
  | '\\' :: 'u' :: a :: b :: c :: d :: rest =>
      (match hexVal a, hexVal b, hexVal c, hexVal d with
       | some ha, some hb, some hc, some hd =>
           (parseStrBody rest).map
             (fun p => (Char.ofNat (((ha * 16 + hb) * 16 + hc) * 16 + hd) :: p.1, p.2))
       | _, _, _, _ => none)
  | '\\' :: e :: rest =>
      (match
        (if e == '"' then some '"'
         else if e == '\\' then some '\\'
         else if e == '/' then some '/'
         else if e == 'b' then some '\x08'
         else if e == 'f' then some '\x0c'
         else if e == 'n' then some '\n'
         else if e == 'r' then some '\r'
         else if e == 't' then some '\t'
         else none) with
       | some dec => (parseStrBody rest).map (fun p => (dec :: p.1, p.2))
       | none => none)
  | c :: rest =>
      if c.toNat < 0x20 then none
      else (parseStrBody rest).map (fun p => (c :: p.1, p.2))

/-- Integer part of a JSON number: `0`, or a nonzero digit followed by
digits (leading zeros are rejected by the grammar). -/
def parseIntPart : List Char → Option (List Char × List Char)
  | [] => none
  | '0' :: rest => some (['0'], rest)
  | c :: rest =>
      if c.isDigit then some (c :: rest.takeWhile Char.isDigit, rest.dropWhile Char.isDigit)
      else none

/-- Optional fraction part; consumes nothing unless `.` is followed by a
digit, exactly like the scanner's regular expression. -/
def parseFrac : List Char → List Char × List Char
  | '.' :: rest =>
      if (rest.takeWhile Char.isDigit).isEmpty then ([], '.' :: rest)
      else ('.' :: rest.takeWhile Char.isDigit, rest.dropWhile Char.isDigit)
  | cs => ([], cs)

/-- Optional exponent part; consumes nothing unless well formed. -/
def parseExp : List Char → List Char × List Char
  | [] => ([], [])
  | e :: rest =>
      if e == 'e' || e == 'E' then
        match rest with
        | s :: rest2 =>
            if s == '+' || s == '-' then
              if (rest2.takeWhile Char.isDigit).isEmpty then ([], e :: rest)
              else (e :: s :: rest2.takeWhile Char.isDigit, rest2.dropWhile Char.isDigit)
            else
              if (rest.takeWhile Char.isDigit).isEmpty then ([], e :: rest)
              else (e :: rest.takeWhile Char.isDigit, rest.dropWhile Char.isDigit)
        | [] => ([], [e])
      else ([], e :: rest)

/-- Unsigned JSON number literal. -/
def parseNumBody (cs : List Char) : Option (List Char × List Char) :=
  match parseIntPart cs with
  | none => none
  | some (ip, r1) =>
      let fr := parseFrac r1
      let ex := parseExp fr.2
      some (ip ++ fr.1 ++ ex.1, ex.2)

/-- JSON number literal with optional leading minus. -/
def parseNum : List Char → Option (List Char × List Char)
  | '-' :: rest =>
      (match parseNumBody rest with
       | some (ds, r) => some ('-' :: ds, r)
       | none => none)
  | cs => parseNumBody cs

mutual

/-- One JSON value at the head of the input (no leading whitespace). -/
def parseValueF : Nat → List Char → Option (Json × List Char)
  | 0, _ => none
  | fuel + 1, cs =>
      match cs with
      | '"' :: rest => (parseStrBody rest).map (fun p => (Json.str (String.mk p.1), p.2))
      | '\x7b' :: rest =>
          (match skipWs rest with
           | '\x7d' :: r2 => some (Json.obj [], r2)
           | r2 => (parseMembersF fuel r2 []).map (fun p => (Json.obj p.1, p.2)))
      | '[' :: rest =>
          (match skipWs rest with
           | ']' :: r2 => some (Json.arr [], r2)
           | r2 => (parseElemsF fuel r2 []).map (fun p => (Json.arr p.1, p.2)))
      | 'n' :: _ => (stripPre ['n', 'u', 'l', 'l'] cs).map (fun r => (Json.null, r))
      | 't' :: _ => (stripPre ['t', 'r', 'u', 'e'] cs).map (fun r => (Json.bool true, r))
      | 'f' :: _ => (stripPre ['f', 'a', 'l', 's', 'e'] cs).map (fun r => (Json.bool false, r))
      | 'N' :: _ => (stripPre ['N', 'a', 'N'] cs).map (fun r => (Json.num "NaN", r))
      | 'I' :: _ =>
          (stripPre ['I', 'n', 'f', 'i', 'n', 'i', 't', 'y'] cs).map
            (fun r => (Json.num "Infinity", r))
      | _ =>
          match parseNum cs with
          | some (ds, r) => some (Json.num (String.mk ds), r)
          | none =>
              (stripPre ['-', 'I', 'n', 'f', 'i', 'n', 'i', 't', 'y'] cs).map
                (fun r => (Json.num "-Infinity", r))

/-- Members of an object after at least one key is required. -/
def parseMembersF :
    Nat → List Char → List (String × Json) → Option (List (String × Json) × List Char)
  | 0, _, _ => none
  | fuel + 1, cs, acc =>
      match cs with
      | '"' :: rest =>
          (match parseStrBody rest with
           | none => none
           | some (key, r1) =>
               match skipWs r1 with
               | ':' :: r2 =>
                   (match parseValueF fuel (skipWs r2) with
                    | none => none
                    | some (v, r3) =>
                        let acc2 := setKey acc (String.mk key) v
                        match skipWs r3 with
                        | ',' :: r4 => parseMembersF fuel (skipWs r4) acc2
                        | '\x7d' :: r4 => some (acc2, r4)
                        | _ => none)
               | _ => none)
      | _ => none

/-- Elements of an array after at least one element is required. -/
def parseElemsF : Nat → List Char → List Json → Option (List Json × List Char)
  | 0, _, _ => none
  | fuel + 1, cs, acc =>
      match parseValueF fuel cs with
      | none => none
      | some (v, r1) =>
          match skipWs r1 with
          | ',' :: r2 => parseElemsF fuel (skipWs r2) (acc ++ [v])
          | ']' :: r2 => some (acc ++ [v], r2)
          | _ => none

end

/-- Model of `json.loads`: optional surrounding whitespace around exactly
one JSON value. -/
def parseJson (s : String) : Option Json :=
  let cs := skipWs s.toList
  match parseValueF (cs.length + 1) cs with
  | some (v, rest) => if (skipWs rest).isEmpty then some v else none
  | none => none

/-! ### The composed pipeline and the multi-call variant -/

/-- Error taxonomy of the specification: `NoJsonFound` covers both
`ValueError`s of the extractor, `InvalidJson` the `json.JSONDecodeError`
of the parser stage. -/
inductive ReconError where
  | noJsonFound : ReconError
  | invalidJson : ReconError
  deriving DecidableEq

/-- The response pipeline of `/api/generate-quiz` (app.py lines 426-428):
extract, parse, then normalize. -/
def reconstruct (raw : String) : Except ReconError Json :=
  match extract_and_repair_json raw with
  | .error _ => .error .noJsonFound
  | .ok payload =>
      match parseJson payload with
      | none => .error .invalidJson
      | some v => .ok (transform_ai_quiz_response v)

/-- The fence pattern of main.py line 87, opening literal. -/
def fence2Open : List Char := ['`', '`', '`', 'j', 's', 'o', 'n', '\n']

/-- The fence pattern of main.py line 87, closing literal. -/
def fence2Close : List Char := ['\n', '`', '`', '`']

/-- Try the main.py fence pattern anchored at `s`; return the capture. -/
def fence2At (s : List Char) : Option (List Char) :=
  match stripPre fence2Open s with
  | none => none
  | some t => (lazySplit fence2Close (fun _ => true) t).map (fun p => p.1)

/-- `re.search` for the main.py fence pattern: leftmost start wins. -/
def fence2Search : List Char → Option (List Char)
  | [] => none
  | c :: cs =>
      match fence2At (c :: cs) with
      | some g => some g
      | none => fence2Search cs

/-- Embeds `extract_json_from_response` (main.py lines 83-100): strict
parse of the whole string, else the content of the first ```json fence,
else the substring from the first `\x7b` to the last `\x7d`, else `None`. -/
def extract_json_from_response (s : String) : Option Json :=
  match parseJson s with
  | some v => some v
  | none =>
      match fence2Search s.toList with
      | some mid => parseJson (String.mk mid)
      | none =>
          let first_brace := pyFind '\x7b' s.toList
          let last_brace := pyRfind '\x7d' s.toList
          if first_brace ≠ -1 ∧ last_brace ≠ -1 then
            parseJson (String.mk (sliceNN s.toList first_brace (last_brace + 1)))
          else none

/-- First non-whitespace character of a string (vocabulary of the
specification's ExtractedPayload invariant). -/
def firstNonWs (s : String) : Option Char :=
  s.toList.find? (fun c => !(isSpaceChar c))

/-- Last non-whitespace character of a string. -/
def lastNonWs (s : String) : Option Char :=
  s.toList.reverse.find? (fun c => !(isSpaceChar c))

/-! ### Lemmas about the dict model -/

theorem lookupKey_setKey_self (fs : List (String × Json)) (k : String) (v : Json) :
    lookupKey (setKey fs k v) k = some v := by
  induction fs with
  | nil => simp [setKey, lookupKey]
  | cons p fs ih =>
      obtain ⟨k', v'⟩ := p
      by_cases h : k' = k
      · simp [setKey, lookupKey, h]
      · simp [setKey, lookupKey, h, ih]

theorem lookupKey_setKey_ne (fs : List (String × Json)) (k k' : String) (v : Json)
    (h : k' ≠ k) : lookupKey (setKey fs k v) k' = lookupKey fs k' := by
  induction fs with
  | nil => simp [setKey, lookupKey, Ne.symm h]
  | cons p fs ih =>
      obtain ⟨k₀, v₀⟩ := p
      by_cases h₀ : k₀ = k
      · subst h₀
        simp [setKey, lookupKey, Ne.symm h, h]
      · by_cases h₁ : k₀ = k'
        · simp [setKey, lookupKey, h₀, h₁, h]
        · simp [setKey, lookupKey, h₀, h₁, h, ih]

theorem hasKey_setKey (fs : List (String × Json)) (k k' : String) (v : Json) :
    hasKey (setKey fs k v) k' = (hasKey fs k' || decide (k' = k)) := by
  by_cases h : k' = k
  · subst h
    simp [hasKey, lookupKey_setKey_self]
  · simp [hasKey, lookupKey_setKey_ne fs k k' v h, h]

theorem lookupKey_delKey_ne (fs : List (String × Json)) (k k' : String)
    (h : k' ≠ k) : lookupKey (delKey fs k) k' = lookupKey fs k' := by
  induction fs with
  | nil => simp [delKey]
  | cons p fs ih =>
      obtain ⟨k₀, v₀⟩ := p
      by_cases h₀ : k₀ = k
      · subst h₀
        simp [delKey, lookupKey, Ne.symm h]
      · by_cases h₁ : k₀ = k'
        · simp [delKey, lookupKey, h₀, h₁, h]
        · simp [delKey, lookupKey, h₀, h₁, h, ih]

theorem hasKey_iff_mem (fs : List (String × Json)) (k : String) :
    hasKey fs k = true ↔ k ∈ fs.map Prod.fst := by
  induction fs with
  | nil => simp [hasKey, lookupKey]
  | cons p fs ih =>
      obtain ⟨k₀, v₀⟩ := p
      by_cases h₀ : k₀ = k
      · simp [hasKey, lookupKey, h₀]
      · simpa [hasKey, lookupKey, h₀, Ne.symm h₀] using ih

theorem hasKey_delKey_self (fs : List (String × Json)) (k : String)
    (h : (fs.map Prod.fst).Nodup) : hasKey (delKey fs k) k = false := by
  induction fs with
  | nil => simp [delKey, hasKey, lookupKey]
  | cons p fs ih =>
      obtain ⟨k₀, v₀⟩ := p
      simp only [List.map_cons, List.nodup_cons] at h
      by_cases h₀ : k₀ = k
      · subst h₀
        rw [Bool.eq_false_iff]
        intro hmem
        rw [delKey, if_pos rfl] at hmem
        exact h.1 ((hasKey_iff_mem fs k₀).mp hmem)
      · rw [delKey, if_neg h₀]
        have := ih h.2
        simpa [hasKey, lookupKey, h₀] using this

theorem setKey_absent (fs : List (String × Json)) (k : String) (v : Json)
    (h : hasKey fs k = false) : setKey fs k v = fs ++ [(k, v)] := by
  induction fs with
  | nil => simp [setKey]
  | cons p fs ih =>
      obtain ⟨k₀, v₀⟩ := p
      by_cases h₀ : k₀ = k
      · subst h₀
        simp [hasKey, lookupKey] at h
      · simp only [hasKey, lookupKey, h₀, if_neg h₀] at h ⊢
        simp only [setKey, if_neg h₀, List.cons_append, List.cons.injEq, true_and]
        exact ih (by simpa [hasKey] using h)

theorem keys_setKey_absent (fs : List (String × Json)) (k : String) (v : Json)
    (h : hasKey fs k = false) :
    (setKey fs k v).map Prod.fst = fs.map Prod.fst ++ [k] := by
  rw [setKey_absent fs k v h, List.map_append]
  rfl

/-! ### Lemmas about the normalizer -/

theorem fix_option_text_isCorrect (t : Json) (b : Bool) :
    fix_option (Json.obj [("text", t), ("isCorrect", Json.bool b)]) =
      Json.obj [("text", t), ("isCorrect", Json.bool b)] := rfl

/-- A question that arrives with an `options` list keeps it, entry by entry
transformed by the option-fixing loop only. -/
theorem transform_question_options (fs : List (String × Json)) (opts : List Json)
    (h : lookupKey fs "options" = some (Json.arr opts)) :
    lookupKey (objFields (transform_question (Json.obj fs))) "options" =
      some (Json.arr (opts.map fix_option)) := by
  have hne : ("options" : String) ≠ "type" := by decide
  cases hT : lookupKey fs "type" with
  | none =>
      have hHas : hasKey fs "options" = true := by simp [hasKey, h]
      simp [transform_question, hT, hHas, h, objFields, lookupKey_setKey_self]
  | some tv =>
      have h1 : lookupKey (setKey fs "type" (normalize_question_type_json tv)) "options"
          = some (Json.arr opts) := by
        rw [lookupKey_setKey_ne _ _ _ _ hne]; exact h
      have hHas : hasKey (setKey fs "type" (normalize_question_type_json tv)) "options" = true := by
        simp [hasKey, h1]
      simp [transform_question, hT, hHas, h1, objFields, lookupKey_setKey_self]

/-- True/False synthesis: with the canonical type `True/False` and no
`options` key, the two option records are synthesized from the `answer`
field and survive the option-fixing loop unchanged. -/
theorem transform_question_tf (fs : List (String × Json)) (tv : Json)
    (hT : lookupKey fs "type" = some tv)
    (hTF : normalize_question_type_json tv = Json.str "True/False")
    (hO : hasKey fs "options" = false) :
    lookupKey (objFields (transform_question (Json.obj fs))) "options" =
      some (Json.arr
        [Json.obj [("text", Json.str "True"),
           ("isCorrect", Json.bool
             (lowerStr (pyStr ((lookupKey fs "answer").getD (Json.str ""))) == "true"))],
         Json.obj [("text", Json.str "False"),
           ("isCorrect", Json.bool
             (!(lowerStr (pyStr ((lookupKey fs "answer").getD (Json.str ""))) == "true")))]]) := by
  have hneOT : ("options" : String) ≠ "type" := by decide
  have hneAT : ("answer" : String) ≠ "type" := by decide
  have hneOI : ("options" : String) ≠ "isCorrect" := by decide
  have h1T : lookupKey (setKey fs "type" (normalize_question_type_json tv)) "type"
      = some (Json.str "True/False") := by
    rw [lookupKey_setKey_self, hTF]
  have h1O : hasKey (setKey fs "type" (normalize_question_type_json tv)) "options" = false := by
    rw [hasKey_setKey, hO]
    simp [hneOT]
  have h1A : lookupKey (setKey fs "type" (normalize_question_type_json tv)) "answer"
      = lookupKey fs "answer" := lookupKey_setKey_ne _ _ _ _ hneAT
  have hbeq : (("True/False" : String) == "True/False") = true := rfl
  simp [transform_question, hT, h1T, h1O, typeIsTrueFalse, hbeq, h1A,
    lookupKey_setKey_self, fix_option_text_isCorrect, objFields]

/-- The option-fixing loop on a record that has `correct` and lacks
`isCorrect`: `isCorrect` is appended with the truthiness of `correct`, and
`correct` is removed. -/
theorem fix_option_spec (ofs : List (String × Json)) (v : Json)
    (hC : lookupKey ofs "correct" = some v)
    (hIC : hasKey ofs "isCorrect" = false)
    (hnd : (ofs.map Prod.fst).Nodup) :
    fix_option (Json.obj ofs) =
      Json.obj (delKey (setKey ofs "isCorrect" (Json.bool (pyBool v))) "correct") ∧
    hasKey (objFields (fix_option (Json.obj ofs))) "correct" = false ∧
    lookupKey (objFields (fix_option (Json.obj ofs))) "isCorrect" = some (Json.bool (pyBool v)) := by
  have hHasC : hasKey ofs "correct" = true := by simp [hasKey, hC]
  have heq : fix_option (Json.obj ofs) =
      Json.obj (delKey (setKey ofs "isCorrect" (Json.bool (pyBool v))) "correct") := by
    simp [fix_option, hHasC, hIC, hC]
  have hnotmem : "isCorrect" ∉ ofs.map Prod.fst := by
    intro hm
    rw [(hasKey_iff_mem ofs "isCorrect").mpr hm] at hIC
    simp at hIC
  have hkeys : (setKey ofs "isCorrect" (Json.bool (pyBool v))).map Prod.fst
      = ofs.map Prod.fst ++ ["isCorrect"] := keys_setKey_absent _ _ _ hIC
  have hnd2 : ((setKey ofs "isCorrect" (Json.bool (pyBool v))).map Prod.fst).Nodup := by
    rw [hkeys]
    refine List.Nodup.append hnd (List.nodup_singleton _) ?_
    intro a ha hb
    rw [List.mem_singleton] at hb
    subst hb
    exact hnotmem ha
  refine ⟨heq, ?_, ?_⟩
  · rw [heq]
    exact hasKey_delKey_self _ _ hnd2
  · rw [heq]
    show lookupKey (delKey (setKey ofs "isCorrect" (Json.bool (pyBool v))) "correct") "isCorrect"
      = some (Json.bool (pyBool v))
    rw [lookupKey_delKey_ne _ _ _ (by decide), lookupKey_setKey_self]

/-! ### Lemmas about the distributor -/

theorem final_types_ne_nil (ls : List String) : final_types ls ≠ [] := by
  have hrfl : final_types ls = if (dedupFirst [] (ls.map normalize_question_type)).isEmpty
      then ["MCQ"] else dedupFirst [] (ls.map normalize_question_type) := rfl
  rw [hrfl]
  by_cases h : (dedupFirst [] (ls.map normalize_question_type)).isEmpty = true
  · simp [h]
  · rw [if_neg h]
    intro hc
    rw [hc] at h
    exact h rfl

theorem enumFrom_get? {α : Type} :
    ∀ (l : List α) (k i : Nat),
      (List.enumFrom k l).get? i = (l.get? i).map (fun a => (k + i, a)) := by
  intro l
  induction l with
  | nil => intro k i; simp
  | cons x xs ih =>
      intro k i
      cases i with
      | zero => simp [List.enumFrom]
      | succ j =>
          have := ih (k + 1) j
          simp only [List.enumFrom, List.get?]
          rw [this]
          have harith : k + 1 + j = k + (j + 1) := by omega
          rw [harith]

/-- Sum of the distributed counts over a window of indices. -/
theorem distribCounts_sum (base r : Nat) (l : List String) :
    ∀ k : Nat,
      ((List.enumFrom k l).map (fun p => base + if p.1 < r then 1 else 0)).sum
        = base * l.length + (min r (k + l.length) - min r k) := by
  induction l with
  | nil => intro k; simp
  | cons x xs ih =>
      intro k
      have h := ih (k + 1)
      simp only [List.enumFrom, List.map_cons, List.sum_cons, List.length_cons]
      rw [h]
      have hmul : base * (xs.length + 1) = base * xs.length + base := by ring
      rw [hmul]
      by_cases hk : k < r
      · rw [if_pos hk]
        omega
      · rw [if_neg hk]
        omega

theorem distribute_eq (labels : List String) (total : Nat) :
    distribute labels total =
      (final_types labels).enum.map
        (fun p => (p.2, total / (final_types labels).length +
          if p.1 < total % (final_types labels).length then 1 else 0)) := rfl

theorem distrib_map_fst (c : Nat → Nat) :
    ∀ (l : List String) (k : Nat),
      ((List.enumFrom k l).map (fun p => (p.2, c p.1))).map Prod.fst = l := by
  intro l
  induction l with
  | nil => intro k; simp
  | cons x xs ih => intro k; simp [List.enumFrom, ih (k + 1)]

theorem distribute_map_fst (labels : List String) (total : Nat) :
    (distribute labels total).map Prod.fst = final_types labels := by
  rw [distribute_eq]
  have h := distrib_map_fst
    (fun i => total / (final_types labels).length +
      if i < total % (final_types labels).length then 1 else 0)
    (final_types labels) 0
  simpa [List.enum] using h

theorem distribute_sum (labels : List String) (total : Nat) :
    ((distribute labels total).map Prod.snd).sum = total := by
  rw [distribute_eq]
  have hn : 0 < (final_types labels).length :=
    List.length_pos.mpr (final_types_ne_nil labels)
  rw [List.map_map]
  have hsum := distribCounts_sum (total / (final_types labels).length)
    (total % (final_types labels).length) (final_types labels) 0
  have hfun : (Prod.snd ∘ fun (p : Nat × String) =>
      (p.2, total / (final_types labels).length +
        if p.1 < total % (final_types labels).length then 1 else 0))
      = fun p => total / (final_types labels).length +
        if p.1 < total % (final_types labels).length then 1 else 0 := rfl
  rw [List.enum, hfun, hsum]
  have hrem : total % (final_types labels).length < (final_types labels).length :=
    Nat.mod_lt _ hn
  have hmin1 : min (total % (final_types labels).length) (0 + (final_types labels).length)
      = total % (final_types labels).length := by omega
  have hmin0 : min (total % (final_types labels).length) 0 = 0 := by omega
  rw [hmin1, hmin0, Nat.sub_zero, Nat.mul_comm]
  exact Nat.div_add_mod total (final_types labels).length

theorem distribute_counts_mem (labels : List String) (total : Nat) (p : String × Nat)
    (hp : p ∈ distribute labels total) :
    p.2 = total / (final_types labels).length ∨
    p.2 = total / (final_types labels).length + 1 := by
  rw [distribute_eq] at hp
  obtain ⟨q, hq, rfl⟩ := List.mem_map.mp hp
  by_cases h : q.1 < total % (final_types labels).length
  · right; simp [h]
  · left; simp [h]

theorem distribute_get? (labels : List String) (total : Nat) (i : Nat) (t : String)
    (h : (final_types labels).get? i = some t) :
    (distribute labels total).get? i =
      some (t, total / (final_types labels).length +
        if i < total % (final_types labels).length then 1 else 0) := by
  rw [distribute_eq, List.get?_map, List.enum, enumFrom_get?, h]
  simp

/-! ### Claim theorems for the distributor -/

/-- Claim C1: for every ordered sequence of labels and every non-negative
total, the distributor returns counts that sum exactly to the total, every
count is within 1 of every other count, the first `total mod n` labels (in
order) receive `base + 1` with `base = total div n` and the rest receive
`base`, and the output order matches the order of the deduplicated
(normalized) input label sequence. -/
theorem C1_distributor_partition (labels : List String) (total : Nat) :
    ((distribute labels total).map Prod.snd).sum = total ∧
    (distribute labels total).map Prod.fst = final_types labels ∧
    (∀ p ∈ distribute labels total, ∀ q ∈ distribute labels total, p.2 ≤ q.2 + 1) ∧
    (∀ i t, (final_types labels).get? i = some t →
      (distribute labels total).get? i =
        some (t, if i < total % (final_types labels).length
          then total / (final_types labels).length + 1
          else total / (final_types labels).length)) := by
  refine ⟨distribute_sum labels total, distribute_map_fst labels total, ?_, ?_⟩
  · intro p hp q hq
    rcases distribute_counts_mem labels total p hp with h1 | h1 <;>
      rcases distribute_counts_mem labels total q hq with h2 | h2 <;> omega
  · intro i t h
    rw [distribute_get? labels total i t h]
    by_cases hi : i < total % (final_types labels).length
    · simp [hi]
    · simp [hi]

/-- Witness for C1 at the spec's own example: ten questions over
`MCQ`, `TrueFalse`, `FillUp` distribute as 4, 3, 3, in input order. -/
theorem C1_witness :
    ((distribute ["MCQ", "TrueFalse", "FillUp"] 10).map Prod.snd).sum = 10 ∧
    (distribute ["MCQ", "TrueFalse", "FillUp"] 10).get? 0 = some ("MCQ", 4) ∧
    (distribute ["MCQ", "TrueFalse", "FillUp"] 10).get? 2 = some ("Fill in Blank", 3) := by
  have h := C1_distributor_partition ["MCQ", "TrueFalse", "FillUp"] 10
  refine ⟨h.1, ?_, ?_⟩
  · have h0 := h.2.2.2 0 "MCQ" (by rfl)
    rw [h0]
    decide
  · have h2 := h.2.2.2 2 "Fill in Blank" (by rfl)
    rw [h2]
    decide

/-- Claim C2: before splitting, the distributor normalizes the labels
through the same type-label mapping as the normalizer
(`normalize_question_type`), deduplicates preserving first occurrences,
and substitutes the single label `MCQ` when the result is empty; the
spec's two examples evaluate exactly as stated. -/
theorem C2_distributor_labels :
    (∀ (labels : List String) (total : Nat),
      (distribute labels total).map Prod.fst =
        (if (dedupFirst [] (labels.map normalize_question_type)).isEmpty then ["MCQ"]
         else dedupFirst [] (labels.map normalize_question_type))) ∧
    distribute ["MCQ", "mcq", "Multiple Choice"] 7 = [("MCQ", 7)] ∧
    distribute [] 5 = [("MCQ", 5)] := by
  refine ⟨?_, by rfl, by rfl⟩
  intro labels total
  exact distribute_map_fst labels total

/-! ### Claim theorems for the normalizer -/

/-- Claim C3: for every question record whose canonical type is True/False
and which has no `options` field, normalization synthesizes exactly the two
option records `text "True" / isCorrect b` and `text "False" / isCorrect
(not b)` in that fixed order, where `b` is the case-insensitive equality of
the string form of the `answer` field with `true`; any other `answer` value
yields `b = false` and is not an error. -/
theorem C3_tf_option_synthesis (fs : List (String × Json)) (tv : Json)
    (hT : lookupKey fs "type" = some tv)
    (hTF : normalize_question_type_json tv = Json.str "True/False")
    (hO : hasKey fs "options" = false) :
    lookupKey (objFields (transform_question (Json.obj fs))) "options" =
      some (Json.arr
        [Json.obj [("text", Json.str "True"),
           ("isCorrect", Json.bool
             (lowerStr (pyStr ((lookupKey fs "answer").getD (Json.str ""))) == "true"))],
         Json.obj [("text", Json.str "False"),
           ("isCorrect", Json.bool
             (!(lowerStr (pyStr ((lookupKey fs "answer").getD (Json.str ""))) == "true")))]]) :=
  transform_question_tf fs tv hT hTF hO

/-- Witness for C3 at the spec's example (`type: "true_false"`,
`answer: "True"`, no options). -/
theorem C3_witness :
    lookupKey (objFields (transform_question (Json.obj
      [("type", Json.str "true_false"), ("answer", Json.str "True")]))) "options" =
      some (Json.arr
        [Json.obj [("text", Json.str "True"), ("isCorrect", Json.bool true)],
         Json.obj [("text", Json.str "False"), ("isCorrect", Json.bool false)]]) := by
  have h := C3_tf_option_synthesis
    [("type", Json.str "true_false"), ("answer", Json.str "True")]
    (Json.str "true_false") (by rfl) (by rfl) (by rfl)
  rw [h]
  rfl

/-- Counterexample to claim C4 as stated: an option record carrying both a
`correct` and an `isCorrect` key on input is left untouched by
normalization, and in particular retains its `correct` field. -/
theorem C4_counterexample :
    transform_question (Json.obj [("options", Json.arr
        [Json.obj [("text", Json.str "x"), ("correct", Json.bool true),
          ("isCorrect", Json.bool true)]])]) =
      Json.obj [("options", Json.arr
        [Json.obj [("text", Json.str "x"), ("correct", Json.bool true),
          ("isCorrect", Json.bool true)]])] ∧
    hasKey [("text", Json.str "x"), ("correct", Json.bool true), ("isCorrect", Json.bool true)]
      "correct" = true :=
  ⟨rfl, rfl⟩

/-- Claim C4 (amended): after normalization every option record that
arrived as a mapping containing `correct` and lacking `isCorrect` exposes a
boolean `isCorrect` (the truthiness of its `correct` value) and retains no
`correct` field; option records that already have an `isCorrect` key —
including those carrying both keys — are left untouched. -/
theorem C4_option_rename (fs : List (String × Json)) (opts : List Json)
    (h : lookupKey fs "options" = some (Json.arr opts)) :
    lookupKey (objFields (transform_question (Json.obj fs))) "options" =
      some (Json.arr (opts.map fix_option)) ∧
    (∀ ofs v, lookupKey ofs "correct" = some v → hasKey ofs "isCorrect" = false →
      (ofs.map Prod.fst).Nodup →
      hasKey (objFields (fix_option (Json.obj ofs))) "correct" = false ∧
      lookupKey (objFields (fix_option (Json.obj ofs))) "isCorrect"
        = some (Json.bool (pyBool v))) ∧
    (∀ ofs, hasKey ofs "isCorrect" = true → fix_option (Json.obj ofs) = Json.obj ofs) := by
  refine ⟨transform_question_options fs opts h, ?_, ?_⟩
  · intro ofs v hC hIC hnd
    obtain ⟨-, h2, h3⟩ := fix_option_spec ofs v hC hIC hnd
    exact ⟨h2, h3⟩
  · intro ofs hIC
    simp [fix_option, hIC]

/-- Witness for C4 at the spec's example option record. -/
theorem C4_witness :
    lookupKey (objFields (fix_option (Json.obj
      [("text", Json.str "x"), ("correct", Json.bool true)]))) "isCorrect"
      = some (Json.bool true) ∧
    hasKey (objFields (fix_option (Json.obj
      [("text", Json.str "x"), ("correct", Json.bool true)]))) "correct" = false := by
  have h := (C4_option_rename
    [("options", Json.arr [Json.obj [("text", Json.str "x"), ("correct", Json.bool true)]])]
    [Json.obj [("text", Json.str "x"), ("correct", Json.bool true)]] (by rfl)).2.1
    [("text", Json.str "x"), ("correct", Json.bool true)] (Json.bool true)
    (by rfl) (by rfl) (by decide)
  exact ⟨h.2, h.1⟩

/-- Counterexample to claim C5 as stated: a True/False question that
arrives with an empty `options` array keeps it, so after normalization it
does not have exactly two option records. -/
theorem C5_counterexample :
    transform_question (Json.obj [("type", Json.str "True/False"), ("options", Json.arr [])]) =
      Json.obj [("type", Json.str "True/False"), ("options", Json.arr [])] ∧
    ([] : List Json).length ≠ 2 :=
  ⟨rfl, by decide⟩

/-- Claim C5 (amended): every question whose canonical type is True/False
and whose `options` field was absent on input has, after normalization,
exactly two option records whose `isCorrect` values are mutually exclusive
(exactly one true), derived from the `answer` field; a question that
arrives with an `options` value keeps it, with no two-option guarantee. -/
theorem C5_tf_two_options (fs : List (String × Json)) (tv : Json)
    (hT : lookupKey fs "type" = some tv)
    (hTF : normalize_question_type_json tv = Json.str "True/False")
    (hO : hasKey fs "options" = false) :
    ∃ (b : Bool) (opts : List Json),
      lookupKey (objFields (transform_question (Json.obj fs))) "options"
        = some (Json.arr opts) ∧
      opts.length = 2 ∧
      opts = [Json.obj [("text", Json.str "True"), ("isCorrect", Json.bool b)],
              Json.obj [("text", Json.str "False"), ("isCorrect", Json.bool (!b))]] ∧
      (b = true ∨ !b = true) ∧ ¬(b = true ∧ !b = true) := by
  refine ⟨lowerStr (pyStr ((lookupKey fs "answer").getD (Json.str ""))) == "true", _,
    transform_question_tf fs tv hT hTF hO, rfl, rfl, ?_, ?_⟩
  · cases lowerStr (pyStr ((lookupKey fs "answer").getD (Json.str ""))) == "true" <;> simp
  · cases lowerStr (pyStr ((lookupKey fs "answer").getD (Json.str ""))) == "true" <;> simp

/-- Witness for C5 at a True/False question with an unrecognized answer. -/
theorem C5_witness :
    ∃ (b : Bool) (opts : List Json),
      lookupKey (objFields (transform_question (Json.obj
        [("type", Json.str "true_false"), ("answer", Json.str "maybe")]))) "options"
        = some (Json.arr opts) ∧
      opts.length = 2 ∧
      opts = [Json.obj [("text", Json.str "True"), ("isCorrect", Json.bool b)],
              Json.obj [("text", Json.str "False"), ("isCorrect", Json.bool (!b))]] ∧
      (b = true ∨ !b = true) ∧ ¬(b = true ∧ !b = true) :=
  C5_tf_two_options [("type", Json.str "true_false"), ("answer", Json.str "maybe")]
    (Json.str "true_false") (by rfl) (by rfl) (by rfl)

/-- Counterexample to claim C6 as stated: `Essay` contains none of the
recognized substrings (case-insensitively), yet normalization returns
`essay`, not the original string — the source lower-cases the label before
the open-vocabulary fallthrough. -/
theorem C6_counterexample :
    (["mcq", "multiple", "true", "false", "fill", "short", "subjective"].all
      (fun t => !(hasSubstr (lowerStr "Essay") t))) = true ∧
    normalize_question_type "Essay" = "essay" ∧
    normalize_question_type "Essay" ≠ "Essay" :=
  ⟨by decide, by decide, by decide⟩

/-- Claim C6 (amended): for every string in which none of the recognized
substrings occurs case-insensitively, `normalize_question_type` returns the
lower-cased original string — so the original string comes back unmodified
exactly when it has no upper-case letters. -/
theorem C6_open_vocabulary (s : String)
    (h1 : hasSubstr (lowerStr s) "mcq" = false)
    (h2 : hasSubstr (lowerStr s) "multiple" = false)
    (h3 : hasSubstr (lowerStr s) "true" = false)
    (h4 : hasSubstr (lowerStr s) "false" = false)
    (h5 : hasSubstr (lowerStr s) "fill" = false)
    (h6 : hasSubstr (lowerStr s) "short" = false)
    (h7 : hasSubstr (lowerStr s) "subjective" = false) :
    normalize_question_type s = lowerStr s := by
  simp [normalize_question_type, h1, h2, h3, h4, h5, h6, h7]

/-- Witness for C6 at the string `Essay`. -/
theorem C6_witness : normalize_question_type "Essay" = lowerStr "Essay" :=
  C6_open_vocabulary "Essay" (by decide) (by decide) (by decide) (by decide)
    (by decide) (by decide) (by decide)

/-- Counterexample to claim C7 as stated: a present non-string `type` is
not left as it is — it is replaced by the canonical default `MCQ`. -/
theorem C7_counterexample :
    transform_question (Json.obj [("type", Json.bool true)])
      = Json.obj [("type", Json.str "MCQ")] ∧
    Json.obj [("type", Json.str "MCQ")] ≠ Json.obj [("type", Json.bool true)] := by
  refine ⟨rfl, ?_⟩
  intro h
  injection h with h1
  injection h1 with hhd _
  injection hhd with _ hv
  exact Json.noConfusion hv

/-- Claim C7 (amended): for every question record whose `type` field is
present but is not a string, normalization replaces the `type` value by the
canonical default string `MCQ`. -/
theorem C7_nonstring_type (fs : List (String × Json)) (tv : Json)
    (hT : lookupKey fs "type" = some tv)
    (hS : ∀ s, tv ≠ Json.str s) :
    lookupKey (objFields (transform_question (Json.obj fs))) "type"
      = some (Json.str "MCQ") := by
  have hN : normalize_question_type_json tv = Json.str "MCQ" := by
    cases tv <;> first | rfl | exact absurd rfl (hS _)
  have h1T : lookupKey (setKey fs "type" (normalize_question_type_json tv)) "type"
      = some (Json.str "MCQ") := by rw [lookupKey_setKey_self, hN]
  have hneq : (("MCQ" : String) == "True/False") = false := rfl
  have hnameo : ("type" : String) ≠ "options" := by decide
  cases hOpt : lookupKey (setKey fs "type" (normalize_question_type_json tv)) "options" with
  | none =>
      simp [transform_question, hT, typeIsTrueFalse, hneq, hOpt, objFields, h1T]
  | some ov =>
      cases ov <;>
        simp [transform_question, hT, typeIsTrueFalse, hneq, hOpt, objFields, h1T,
          lookupKey_setKey_ne _ _ _ _ hnameo]

/-- Witness for C7 at `type: True` (a Python boolean, not a string). -/
theorem C7_witness :
    lookupKey (objFields (transform_question (Json.obj [("type", Json.bool true)]))) "type"
      = some (Json.str "MCQ") :=
  C7_nonstring_type [("type", Json.bool true)] (Json.bool true) (by rfl)
    (fun s h => Json.noConfusion h)

/-! ### Lemmas about find, rfind and the chosen positions -/

theorem findIdx_eq_none (c : Char) (cs : List Char) : findIdx c cs = none ↔ c ∉ cs := by
  induction cs with
  | nil => simp [findIdx]
  | cons x xs ih =>
      rw [findIdx]
      by_cases h : x == c
      · have hx : x = c := eq_of_beq h
        subst hx
        simp [h]
      · have hx : c ≠ x := fun he => by simp [he] at h
        rw [if_neg h]
        simp [Option.map_eq_none', ih, hx]

theorem findIdx_some_get (c : Char) :
    ∀ (cs : List Char) (n : Nat), findIdx c cs = some n → cs.get? n = some c := by
  intro cs
  induction cs with
  | nil => intro n h; simp [findIdx] at h
  | cons x xs ih =>
      intro n h
      by_cases hx : x == c
      · rw [findIdx, if_pos hx] at h
        obtain rfl : (0 : Nat) = n := Option.some.inj h
        simp [eq_of_beq hx]
      · rw [findIdx, if_neg hx] at h
        obtain ⟨m, hm, rfl⟩ := Option.map_eq_some'.mp h
        simpa using ih m hm

theorem rfindIdx_eq_none (c : Char) (cs : List Char) : rfindIdx c cs = none ↔ c ∉ cs := by
  induction cs with
  | nil => simp [rfindIdx]
  | cons x xs ih =>
      rw [rfindIdx]
      cases hr : rfindIdx c xs with
      | some n =>
          have hmem : c ∈ xs := by
            by_contra hc
            rw [ih.mpr hc] at hr
            exact Option.noConfusion hr
          simp [hmem]
      | none =>
          have hnot : c ∉ xs := ih.mp hr
          by_cases hx : x == c
          · have hxx : x = c := eq_of_beq hx
            subst hxx
            simp [hx]
          · have hcx : c ≠ x := fun he => by simp [he] at hx
            simp [hx, hcx, hnot]

theorem rfindIdx_some_get (c : Char) :
    ∀ (cs : List Char) (n : Nat), rfindIdx c cs = some n → cs.get? n = some c := by
  intro cs
  induction cs with
  | nil => intro n h; simp [rfindIdx] at h
  | cons x xs ih =>
      intro n h
      rw [rfindIdx] at h
      cases hr : rfindIdx c xs with
      | some m =>
          rw [hr] at h
          obtain rfl : m + 1 = n := Option.some.inj h
          simpa using ih m hr
      | none =>
          rw [hr] at h
          by_cases hx : x == c
          · rw [if_pos hx] at h
            obtain rfl : (0 : Nat) = n := Option.some.inj h
            simp [eq_of_beq hx]
          · rw [if_neg hx] at h
            exact absurd h (by simp)

theorem rfindIdx_last (c : Char) :
    ∀ (cs : List Char) (n : Nat), rfindIdx c cs = some n →
      ∀ j : Nat, n < j → cs.get? j ≠ some c := by
  intro cs
  induction cs with
  | nil => intro n h; simp [rfindIdx] at h
  | cons x xs ih =>
      intro n h j hj
      rw [rfindIdx] at h
      cases hr : rfindIdx c xs with
      | some m =>
          rw [hr] at h
          obtain rfl : m + 1 = n := Option.some.inj h
          cases j with
          | zero => omega
          | succ i =>
              have := ih m hr i (by omega)
              simpa using this
      | none =>
          rw [hr] at h
          by_cases hx : x == c
          · rw [if_pos hx] at h
            obtain rfl : (0 : Nat) = n := Option.some.inj h
            cases j with
            | zero => omega
            | succ i =>
                have hnot : c ∉ xs := (rfindIdx_eq_none c xs).mp hr
                intro hget
                exact hnot (List.get?_mem (by simpa using hget))
          · rw [if_neg hx] at h
            exact absurd h (by simp)

theorem pyRfind_after (c : Char) (cs : List Char) (j : Nat)
    (h : pyRfind c cs < (j : Int)) : cs.get? j ≠ some c := by
  cases hr : rfindIdx c cs with
  | none =>
      intro hget
      exact (rfindIdx_eq_none c cs).mp hr (List.get?_mem hget)
  | some n =>
      have hpv : pyRfind c cs = (n : Int) := by unfold pyRfind; rw [hr]
      rw [hpv] at h
      have hnj : n < j := by exact_mod_cast h
      exact rfindIdx_last c cs n hr j hnj

theorem pyFind_eq_neg1 (c : Char) (cs : List Char) : pyFind c cs = -1 ↔ c ∉ cs := by
  cases hf : findIdx c cs with
  | none =>
      have hpv : pyFind c cs = -1 := by unfold pyFind; rw [hf]
      simp [hpv, (findIdx_eq_none c cs).mp hf]
  | some n =>
      have hpv : pyFind c cs = (n : Int) := by unfold pyFind; rw [hf]
      rw [hpv]
      constructor
      · intro h; omega
      · intro h
        rw [← findIdx_eq_none c cs] at h
        rw [h] at hf
        exact Option.noConfusion hf

theorem pyRfind_eq_neg1 (c : Char) (cs : List Char) : pyRfind c cs = -1 ↔ c ∉ cs := by
  cases hf : rfindIdx c cs with
  | none =>
      have hpv : pyRfind c cs = -1 := by unfold pyRfind; rw [hf]
      simp [hpv, (rfindIdx_eq_none c cs).mp hf]
  | some n =>
      have hpv : pyRfind c cs = (n : Int) := by unfold pyRfind; rw [hf]
      rw [hpv]
      constructor
      · intro h; omega
      · intro h
        rw [← rfindIdx_eq_none c cs] at h
        rw [h] at hf
        exact Option.noConfusion hf

theorem pyFind_cases (c : Char) (cs : List Char) :
    pyFind c cs = -1 ∨ (0 ≤ pyFind c cs ∧ cs.get? (pyFind c cs).toNat = some c) := by
  cases hf : findIdx c cs with
  | none => left; unfold pyFind; rw [hf]
  | some n =>
      right
      have hpv : pyFind c cs = (n : Int) := by unfold pyFind; rw [hf]
      rw [hpv]
      refine ⟨by omega, ?_⟩
      simpa using findIdx_some_get c cs n hf

theorem pyRfind_cases (c : Char) (cs : List Char) :
    pyRfind c cs = -1 ∨ (0 ≤ pyRfind c cs ∧ cs.get? (pyRfind c cs).toNat = some c) := by
  cases hf : rfindIdx c cs with
  | none => left; unfold pyRfind; rw [hf]
  | some n =>
      right
      have hpv : pyRfind c cs = (n : Int) := by unfold pyRfind; rw [hf]
      rw [hpv]
      refine ⟨by omega, ?_⟩
      simpa using rfindIdx_some_get c cs n hf

theorem startPos_eq (cs : List Char) :
    startPos cs =
      if pyFind '\x7b' cs ≠ -1 ∧ (pyFind '[' cs = -1 ∨ pyFind '\x7b' cs < pyFind '[' cs)
      then pyFind '\x7b' cs
      else if pyFind '[' cs ≠ -1 then pyFind '[' cs else -1 := rfl

theorem startPos_eq_neg1_iff (cs : List Char) :
    startPos cs = -1 ↔ ('\x7b' ∉ cs ∧ '[' ∉ cs) := by
  rw [← pyFind_eq_neg1 '\x7b' cs, ← pyFind_eq_neg1 '[' cs, startPos_eq]
  rcases pyFind_cases '\x7b' cs with hb | ⟨hb, -⟩ <;>
    rcases pyFind_cases '[' cs with hk | ⟨hk, -⟩ <;> split_ifs with h1 h2 <;>
      constructor <;> intro hh <;> omega

theorem startPos_spec (cs : List Char) (h : startPos cs ≠ -1) :
    0 ≤ startPos cs ∧
    (cs.get? (startPos cs).toNat = some '\x7b' ∨ cs.get? (startPos cs).toNat = some '[') := by
  rw [startPos_eq] at h ⊢
  rcases pyFind_cases '\x7b' cs with hb | ⟨hb, hbg⟩ <;>
    rcases pyFind_cases '[' cs with hk | ⟨hk, hkg⟩ <;> split_ifs at h ⊢ with h1 h2
  all_goals first
    | exact absurd rfl h
    | omega
    | exact ⟨by omega, Or.inl hbg⟩
    | exact ⟨by omega, Or.inr hkg⟩

theorem endPos_eq_neg1_iff (cs : List Char) :
    endPos cs = -1 ↔ ('\x7d' ∉ cs ∧ ']' ∉ cs) := by
  rw [← pyRfind_eq_neg1 '\x7d' cs, ← pyRfind_eq_neg1 ']' cs]
  unfold endPos
  rcases pyRfind_cases '\x7d' cs with hb | ⟨hb, -⟩ <;>
    rcases pyRfind_cases ']' cs with hk | ⟨hk, -⟩ <;>
      constructor <;> intro hh <;> omega

theorem endPos_spec (cs : List Char) (h : endPos cs ≠ -1) :
    0 ≤ endPos cs ∧
    (cs.get? (endPos cs).toNat = some '\x7d' ∨ cs.get? (endPos cs).toNat = some ']') ∧
    (∀ j : Nat, endPos cs < (j : Int) →
      cs.get? j ≠ some '\x7d' ∧ cs.get? j ≠ some ']') := by
  have hafter : ∀ j : Nat, endPos cs < (j : Int) →
      cs.get? j ≠ some '\x7d' ∧ cs.get? j ≠ some ']' := by
    intro j hj
    unfold endPos at hj
    constructor
    · exact pyRfind_after '\x7d' cs j (by omega)
    · exact pyRfind_after ']' cs j (by omega)
  refine ⟨?_, ?_, hafter⟩
  · unfold endPos at h ⊢
    rcases pyRfind_cases '\x7d' cs with hb | ⟨hb, -⟩ <;>
      rcases pyRfind_cases ']' cs with hk | ⟨hk, -⟩ <;> omega
  · unfold endPos at h ⊢
    rcases pyRfind_cases '\x7d' cs with hb | ⟨hb, hbg⟩ <;>
      rcases pyRfind_cases ']' cs with hk | ⟨hk, hkg⟩
    · omega
    · have hm : max (pyRfind '\x7d' cs) (pyRfind ']' cs) = pyRfind ']' cs := by
        rw [hb]; exact max_eq_right (by omega)
      rw [hm]; exact Or.inr hkg
    · have hm : max (pyRfind '\x7d' cs) (pyRfind ']' cs) = pyRfind '\x7d' cs := by
        rw [hk]; exact max_eq_left (by omega)
      rw [hm]; exact Or.inl hbg
    · rcases le_total (pyRfind ']' cs) (pyRfind '\x7d' cs) with hle | hle
      · rw [max_eq_left hle]; exact Or.inl hbg
      · rw [max_eq_right hle]; exact Or.inr hkg

/-! ### The fence capture only contains characters of the searched text -/

theorem stripPre_eq : ∀ (pre s r : List Char), stripPre pre s = some r → s = pre ++ r := by
  intro pre
  induction pre with
  | nil =>
      intro s r h
      rw [stripPre] at h
      obtain rfl := Option.some.inj h
      simp
  | cons a as ih =>
      intro s r h
      cases s with
      | nil => exact absurd h (by simp [stripPre])
      | cons b bs =>
          rw [stripPre] at h
          by_cases hab : a == b
          · rw [if_pos hab] at h
            have hb := ih bs r h
            simp [hb, eq_of_beq hab]
          · rw [if_neg hab] at h
            exact absurd h (by simp)

theorem wsDrops_mem_sub : ∀ (s : List Char), ∀ t ∈ wsDrops s, ∀ c ∈ t, c ∈ s := by
  intro s
  induction s with
  | nil =>
      intro t ht c hc
      rw [wsDrops] at ht
      rw [List.mem_singleton] at ht
      subst ht
      exact hc
  | cons x xs ih =>
      intro t ht c hc
      rw [wsDrops] at ht
      by_cases hx : isSpaceChar x
      · rw [if_pos hx, List.mem_append] at ht
        rcases ht with ht | ht
        · exact List.mem_cons_of_mem x (ih t ht c hc)
        · rw [List.mem_singleton] at ht
          subst ht
          exact hc
      · rw [if_neg hx, List.mem_singleton] at ht
        subst ht
        exact hc

theorem lazySplit_concat (closer : List Char) (cont : List Char → Bool) :
    ∀ (s mid rest : List Char),
      lazySplit closer cont s = some (mid, rest) → mid ++ (closer ++ rest) = s := by
  intro s
  induction s with
  | nil =>
      intro mid rest h
      rw [lazySplit] at h
      split at h
      · next r hs =>
          split_ifs at h with hc
          have hinj := Option.some.inj h
          have h1 : ([] : List Char) = mid := congrArg Prod.fst hinj
          have h2 : r = rest := congrArg Prod.snd hinj
          subst h1
          subst h2
          simpa using (stripPre_eq closer [] r hs).symm
      · next hs => exact absurd h (by simp)
  | cons x xs ih =>
      intro mid rest h
      rw [lazySplit] at h
      split at h
      · next r hs =>
          split_ifs at h with hc
          · have hinj := Option.some.inj h
            have h1 : ([] : List Char) = mid := congrArg Prod.fst hinj
            have h2 : r = rest := congrArg Prod.snd hinj
            subst h1
            subst h2
            simpa using (stripPre_eq closer (x :: xs) r hs).symm
          · obtain ⟨⟨m, r2⟩, hm, hmk⟩ := Option.map_eq_some'.mp h
            have hmm : x :: m = mid := congrArg Prod.fst hmk
            have hrr : r2 = rest := congrArg Prod.snd hmk
            subst hmm
            subst hrr
            simpa using congrArg (List.cons x) (ih m r2 hm)
      · next hs =>
          obtain ⟨⟨m, r2⟩, hm, hmk⟩ := Option.map_eq_some'.mp h
          have hmm : x :: m = mid := congrArg Prod.fst hmk
          have hrr : r2 = rest := congrArg Prod.snd hmk
          subst hmm
          subst hrr
          simpa using congrArg (List.cons x) (ih m r2 hm)

theorem firstSome_some {α β : Type} (f : α → Option β) :
    ∀ (l : List α) (g : β), firstSome f l = some g → ∃ x ∈ l, f x = some g := by
  intro l
  induction l with
  | nil => intro g h; exact absurd h (by simp [firstSome])
  | cons x xs ih =>
      intro g h
      rw [firstSome] at h
      split at h
      · next r hr =>
          exact ⟨x, List.mem_cons_self x xs, hr.trans (congrArg some (Option.some.inj h))⟩
      · next hr =>
          obtain ⟨y, hy, hfy⟩ := ih g h
          exact ⟨y, List.mem_cons_of_mem x hy, hfy⟩

theorem groupMath_chars (s g : List Char) (h : groupMath s = some g) : ∀ c ∈ g, c ∈ s := by
  rw [groupMath] at h
  split at h
  · next hs => exact absurd h (by simp)
  · next t hs =>
      split at h
      · next mid rest hl =>
          obtain rfl := Option.some.inj h
          have hpre := stripPre_eq _ s t hs
          have hcat := lazySplit_concat ticks3 tailTicks t mid rest hl
          intro c hc
          rw [hpre, List.mem_append]
          rcases List.mem_append.mp hc with h1 | h4
          · rcases List.mem_append.mp h1 with h2 | h3
            · exact Or.inl h2
            · right
              rw [← hcat, List.mem_append]
              exact Or.inl h3
          · right
            rw [← hcat, List.mem_append]
            exact Or.inr (List.mem_append.mpr (Or.inl h4))
      · next hl => exact absurd h (by simp)

theorem groupAt_chars (s g : List Char) (h : groupAt s = some g) : ∀ c ∈ g, c ∈ s := by
  unfold groupAt at h
  split at h
  · next t =>
      cases hl : lazySplit ['\x7d'] tailTicks t with
      | none =>
          rw [hl] at h
          exact groupMath_chars _ _ h
      | some p =>
          rw [hl] at h
          obtain ⟨mid, rest⟩ := p
          obtain rfl := Option.some.inj h
          have hcat := lazySplit_concat ['\x7d'] tailTicks t mid rest hl
          intro c hc
          rcases List.mem_cons.mp hc with rfl | hc2
          · exact List.mem_cons_self _ _
          · apply List.mem_cons_of_mem
            rw [← hcat, List.mem_append]
            rcases List.mem_append.mp hc2 with hm | hend
            · exact Or.inl hm
            · exact Or.inr (List.mem_append.mpr (Or.inl hend))
  · exact groupMath_chars _ _ h

theorem fenceAt_chars (s g : List Char) (h : fenceAt s = some g) : ∀ c ∈ g, c ∈ s := by
  rw [fenceAt] at h
  cases hs : stripPre ticks3 s with
  | none => rw [hs] at h; exact absurd h (by simp)
  | some s1 =>
      rw [hs] at h
      have hs1 : ∀ c ∈ s1, c ∈ s := by
        intro c hc
        rw [stripPre_eq ticks3 s s1 hs, List.mem_append]
        exact Or.inr hc
      have hstarts : ∀ s2 ∈ (match stripPre ['j', 's', 'o', 'n'] s1 with
          | some s2 => [s2, s1]
          | none => [s1]), ∀ c ∈ s2, c ∈ s := by
        cases hj : stripPre ['j', 's', 'o', 'n'] s1 with
        | some s2 =>
            intro t ht c hc
            rcases List.mem_cons.mp ht with rfl | ht2
            · apply hs1
              rw [stripPre_eq _ s1 t hj, List.mem_append]
              exact Or.inr hc
            · rw [List.mem_singleton] at ht2
              subst ht2
              exact hs1 c hc
        | none =>
            intro t ht c hc
            rw [List.mem_singleton] at ht
            subst ht
            exact hs1 c hc
      obtain ⟨s2, hmem, hf⟩ := firstSome_some _ _ _ h
      obtain ⟨t, htmem, hgt⟩ := firstSome_some _ _ _ hf
      intro c hc
      exact hstarts s2 hmem c (wsDrops_mem_sub s2 t htmem c (groupAt_chars t g hgt c hc))

theorem fenceSearch_chars :
    ∀ (s : List Char) (g : List Char), fenceSearch s = some g → ∀ c ∈ g, c ∈ s := by
  intro s
  induction s with
  | nil => intro g h; exact absurd h (by simp [fenceSearch])
  | cons x xs ih =>
      intro g h
      rw [fenceSearch] at h
      cases hf : fenceAt (x :: xs) with
      | some g2 =>
          rw [hf] at h
          obtain rfl := Option.some.inj h
          exact fenceAt_chars _ _ hf
      | none =>
          rw [hf] at h
          intro c hc
          exact List.mem_cons_of_mem x (ih g h c hc)

theorem workingText_chars (s : String) :
    ∀ c ∈ (workingText s).toList, c ∈ s.toList := by
  rw [workingText]
  cases hf : fenceSearch s.toList with
  | some g =>
      intro c hc
      exact fenceSearch_chars _ _ hf c hc
  | none =>
      intro c hc
      exact hc

/-! ### Claim theorems for the extractor -/

theorem extract_eq (text : String) :
    extract_and_repair_json text =
      (if startPos ((workingText text).toList) = -1 then
        Except.error "Could not find a starting JSON brace or bracket."
      else if endPos ((workingText text).toList) = -1 then
        Except.error "Could not find a closing JSON brace or bracket."
      else Except.ok (String.mk (sliceNN ((workingText text).toList)
        (startPos ((workingText text).toList))
        (endPos ((workingText text).toList) + 1)))) := rfl

theorem extract_error_iff (s : String) :
    (∃ e, extract_and_repair_json s = .error e) ↔
      (('\x7b' ∉ (workingText s).toList ∧ '[' ∉ (workingText s).toList) ∨
       ('\x7d' ∉ (workingText s).toList ∧ ']' ∉ (workingText s).toList)) := by
  rw [extract_eq, ← startPos_eq_neg1_iff, ← endPos_eq_neg1_iff]
  split_ifs with h1 h2
  · exact ⟨fun _ => Or.inl h1, fun _ => ⟨_, rfl⟩⟩
  · exact ⟨fun _ => Or.inr h2, fun _ => ⟨_, rfl⟩⟩
  · constructor
    · rintro ⟨e, he⟩
      exact absurd he (by simp)
    · rintro (h | h)
      · exact absurd h h1
      · exact absurd h h2

/-- Claim C8 (amended): the extractor fails — with `NoJsonFound` — exactly
when its working text lacks an opening delimiter or lacks a closing
delimiter; in particular, every input containing none of the four delimiter
characters makes the pipeline fail with `NoJsonFound`; and every input
whose working text retains an opening and a closing delimiter but whose
extracted payload does not parse makes the pipeline fail with `InvalidJson`
at the parser stage. -/
theorem C8_error_taxonomy :
    (∀ s : String,
      (∃ e, extract_and_repair_json s = .error e) ↔
        (('\x7b' ∉ (workingText s).toList ∧ '[' ∉ (workingText s).toList) ∨
         ('\x7d' ∉ (workingText s).toList ∧ ']' ∉ (workingText s).toList))) ∧
    (∀ s : String,
      (∀ c ∈ s.toList, c ≠ '\x7b' ∧ c ≠ '[' ∧ c ≠ '\x7d' ∧ c ≠ ']') →
      reconstruct s = .error .noJsonFound) ∧
    (∀ s : String,
      ('\x7b' ∈ (workingText s).toList ∨ '[' ∈ (workingText s).toList) →
      ('\x7d' ∈ (workingText s).toList ∨ ']' ∈ (workingText s).toList) →
      parseJson (String.mk (sliceNN (workingText s).toList
        (startPos (workingText s).toList) (endPos (workingText s).toList + 1))) = none →
      reconstruct s = .error .invalidJson) := by
  refine ⟨extract_error_iff, ?_, ?_⟩
  · intro s hc
    have h1 : startPos (workingText s).toList = -1 := by
      refine (startPos_eq_neg1_iff _).mpr ⟨?_, ?_⟩
      · intro hm
        exact (hc _ (workingText_chars s _ hm)).1 rfl
      · intro hm
        exact (hc _ (workingText_chars s _ hm)).2.1 rfl
    rw [reconstruct, extract_eq, if_pos h1]
  · intro s hop hcl hp
    have h1 : startPos (workingText s).toList ≠ -1 := by
      intro heq
      obtain ⟨ha, hb⟩ := (startPos_eq_neg1_iff _).mp heq
      rcases hop with h | h
      · exact ha h
      · exact hb h
    have h2 : endPos (workingText s).toList ≠ -1 := by
      intro heq
      obtain ⟨ha, hb⟩ := (endPos_eq_neg1_iff _).mp heq
      rcases hcl with h | h
      · exact ha h
      · exact hb h
    have hex : extract_and_repair_json s = .ok (String.mk (sliceNN (workingText s).toList
        (startPos (workingText s).toList) (endPos (workingText s).toList + 1))) := by
      rw [extract_eq, if_neg h1, if_neg h2]
    simp only [reconstruct, hex, hp]

/-- Counterexample to claim C8 as stated: this input contains `\x7b`
followed by unparseable content and `\x7d`, yet the fenced block chosen by
the extractor is the `math` alternative, which contains no delimiter at
all, so the pipeline fails with `NoJsonFound` instead of `InvalidJson`. -/
theorem C8_counterexample :
    '\x7b' ∈ ("```json ```math x``` ``` \x7b oops \x7d").toList ∧
    '\x7d' ∈ ("```json ```math x``` ``` \x7b oops \x7d").toList ∧
    parseJson "\x7b oops \x7d" = none ∧
    workingText "```json ```math x``` ``` \x7b oops \x7d" = "```math x```" ∧
    reconstruct "```json ```math x``` ``` \x7b oops \x7d" = .error .noJsonFound ∧
    ReconError.noJsonFound ≠ ReconError.invalidJson :=
  ⟨by decide, by decide, by rfl, by rfl, by rfl, by decide⟩

/-- Witness for C8: a delimiter-free input gives `NoJsonFound`, and an
input whose braces enclose unparseable content gives `InvalidJson`. -/
theorem C8_witness :
    reconstruct "no json here" = .error .noJsonFound ∧
    reconstruct "\x7b oops \x7d" = .error .invalidJson := by
  constructor
  · exact C8_error_taxonomy.2.1 "no json here" (by decide)
  · exact C8_error_taxonomy.2.2 "\x7b oops \x7d" (by decide) (by decide) (by rfl)

theorem head?_eq_get?0 {α : Type} (l : List α) : l.head? = l.get? 0 := by
  cases l <;> rfl

theorem find?_head {α : Type} (p : α → Bool) (l : List α) (c : α)
    (hh : l.head? = some c) (hp : p c = true) : l.find? p = some c := by
  cases l with
  | nil => exact absurd hh (by simp)
  | cons x xs =>
      obtain rfl : x = c := Option.some.inj hh
      simp [List.find?, hp]

theorem slice_empty (cs : List Char) (sp ep : Int) (hsp : 0 ≤ sp) (hlt : ep < sp) :
    String.mk (sliceNN cs sp (ep + 1)) = "" := by
  have hlen : (cs.take (ep + 1).toNat).length ≤ sp.toNat := by
    have h1 : (cs.take (ep + 1).toNat).length ≤ (ep + 1).toNat := by
      rw [List.length_take]
      omega
    omega
  have hnil : sliceNN cs sp (ep + 1) = [] := by
    unfold sliceNN
    exact List.drop_eq_nil_of_le hlen
  rw [hnil]

theorem slice_ends (cs : List Char) (sp ep : Int)
    (hsp : 0 ≤ sp) (hep : 0 ≤ ep) (hle : sp ≤ ep) (hel : ep.toNat < cs.length) :
    (String.mk (sliceNN cs sp (ep + 1))).toList.head? = cs.get? sp.toNat ∧
    (String.mk (sliceNN cs sp (ep + 1))).toList.getLast? = cs.get? ep.toNat := by
  have hTL : (String.mk (sliceNN cs sp (ep + 1))).toList = (cs.take (ep + 1).toNat).drop sp.toNat := rfl
  have hto : (ep + 1).toNat = ep.toNat + 1 := by omega
  have hato : sp.toNat ≤ ep.toNat := by omega
  constructor
  · rw [hTL, head?_eq_get?0, List.get?_drop,
      List.get?_take (show sp.toNat + 0 < (ep + 1).toNat by omega), Nat.add_zero]
  · have hlen2 : ((cs.take (ep + 1).toNat).drop sp.toNat).length = (ep + 1).toNat - sp.toNat := by
      rw [List.length_drop, List.length_take]
      omega
    rw [hTL, List.getLast?_eq_get?, hlen2, List.get?_drop,
      List.get?_take (show sp.toNat + ((ep + 1).toNat - sp.toNat - 1) < (ep + 1).toNat by omega)]
    have hidx : sp.toNat + ((ep + 1).toNat - sp.toNat - 1) = ep.toNat := by omega
    rw [hidx]

/-- Claim C9 (amended): on every successful extraction where the last
closing delimiter does not precede the first opening delimiter, the
payload's first non-whitespace character is the character at the start
position — a `\x7b` or `[` — and its last non-whitespace character is the
character at the end position, the lexically-last `\x7d` or `]` of the
working text found by scanning from the end; when the last closing
delimiter precedes the first opening delimiter, extraction still succeeds
but returns the empty payload. -/
theorem C9_payload_shape (s p : String)
    (h : extract_and_repair_json s = .ok p) :
    (endPos (workingText s).toList < startPos (workingText s).toList → p = "") ∧
    (startPos (workingText s).toList ≤ endPos (workingText s).toList →
      firstNonWs p = (workingText s).toList.get? (startPos (workingText s).toList).toNat ∧
      ((workingText s).toList.get? (startPos (workingText s).toList).toNat = some '\x7b' ∨
       (workingText s).toList.get? (startPos (workingText s).toList).toNat = some '[') ∧
      lastNonWs p = (workingText s).toList.get? (endPos (workingText s).toList).toNat ∧
      ((workingText s).toList.get? (endPos (workingText s).toList).toNat = some '\x7d' ∨
       (workingText s).toList.get? (endPos (workingText s).toList).toNat = some ']') ∧
      (∀ j : Nat, endPos (workingText s).toList < (j : Int) →
        (workingText s).toList.get? j ≠ some '\x7d' ∧
        (workingText s).toList.get? j ≠ some ']')) := by
  rw [extract_eq] at h
  by_cases h1 : startPos (workingText s).toList = -1
  · rw [if_pos h1] at h
    exact absurd h (by simp)
  rw [if_neg h1] at h
  by_cases h2 : endPos (workingText s).toList = -1
  · rw [if_pos h2] at h
    exact absurd h (by simp)
  rw [if_neg h2] at h
  have hpv : p = String.mk (sliceNN (workingText s).toList
      (startPos (workingText s).toList) (endPos (workingText s).toList + 1)) :=
    (Except.ok.inj h).symm
  obtain ⟨hs0, hschar⟩ := startPos_spec _ h1
  obtain ⟨he0, hechar, hafter⟩ := endPos_spec _ h2
  constructor
  · intro hlt
    rw [hpv]
    exact slice_empty _ _ _ hs0 hlt
  · intro hle
    have hel : (endPos (workingText s).toList).toNat < (workingText s).toList.length := by
      rcases hechar with hg | hg
      · exact (List.get?_eq_some.mp hg).1
      · exact (List.get?_eq_some.mp hg).1
    obtain ⟨hhead, hlast⟩ := slice_ends (workingText s).toList
      (startPos (workingText s).toList) (endPos (workingText s).toList) hs0 he0 hle hel
    rw [← hpv] at hhead hlast
    have hfirst : firstNonWs p
        = (workingText s).toList.get? (startPos (workingText s).toList).toNat := by
      rcases hschar with hg | hg
      · rw [firstNonWs, find?_head _ _ '\x7b' (hhead.trans hg) (by decide), hg]
      · rw [firstNonWs, find?_head _ _ '[' (hhead.trans hg) (by decide), hg]
    have hrev : p.toList.reverse.head?
        = (workingText s).toList.get? (endPos (workingText s).toList).toNat := by
      rw [List.head?_reverse, hlast]
    have hlastNW : lastNonWs p
        = (workingText s).toList.get? (endPos (workingText s).toList).toNat := by
      rcases hechar with hg | hg
      · rw [lastNonWs, find?_head _ _ '\x7d' (hrev.trans hg) (by decide), hg]
      · rw [lastNonWs, find?_head _ _ ']' (hrev.trans hg) (by decide), hg]
    exact ⟨hfirst, hschar, hlastNW, hechar, hafter⟩

/-- Counterexample to claim C9 as stated: on `"\x7d \x7b"` the last closing
delimiter precedes the first opening delimiter; extraction succeeds with
the empty payload, which has no first non-whitespace character at all. -/
theorem C9_counterexample :
    extract_and_repair_json "\x7d \x7b" = .ok "" ∧
    firstNonWs "" = none ∧
    lastNonWs "" = none :=
  ⟨by rfl, by rfl, by rfl⟩

/-- Witness for C9 on a payload wrapped in prose. -/
theorem C9_witness :
    firstNonWs "[1]" = some '[' ∧ lastNonWs "[1]" = some ']' := by
  have h := C9_payload_shape "text [1] more text" "[1]" (by rfl)
  have h2 := h.2 (by decide)
  refine ⟨?_, ?_⟩
  · rw [h2.1]
    rfl
  · rw [h2.2.2.1]
    rfl

/-! ### Claim theorem for the multi-call variant's extractor -/

/-- Claim C10: the fallback extractor of the multi-call variant is total —
it returns the strict parse of the whole string when that succeeds, and it
returns `None` exactly when the strict parse fails and the attempted
fallback (the first ```json fence's content when a fence matches,
otherwise the substring from the first `\x7b` to the last `\x7d` when both
exist) also fails; no input raises at this layer. -/
theorem C10_fallback_extractor_total :
    (∀ (s : String) (v : Json), parseJson s = some v → extract_json_from_response s = some v) ∧
    (∀ s : String,
      extract_json_from_response s = none ↔
        (parseJson s = none ∧
          ((∃ g, fence2Search s.toList = some g ∧ parseJson (String.mk g) = none) ∨
           (fence2Search s.toList = none ∧
             (pyFind '\x7b' s.toList = -1 ∨ pyRfind '\x7d' s.toList = -1 ∨
              parseJson (String.mk (sliceNN s.toList (pyFind '\x7b' s.toList)
                (pyRfind '\x7d' s.toList + 1))) = none))))) := by
  constructor
  · intro s v h
    simp [extract_json_from_response, h]
  · intro s
    cases hp : parseJson s with
    | some v =>
        simp [extract_json_from_response, hp]
    | none =>
        cases hf : fence2Search s.toList with
        | some g =>
            simp only [extract_json_from_response, hp, hf]
            constructor
            · intro h
              exact ⟨trivial, Or.inl ⟨g, rfl, h⟩⟩
            · rintro ⟨-, hca | hcb⟩
              · obtain ⟨g2, hg2, hpg⟩ := hca
                obtain rfl := Option.some.inj hg2
                exact hpg
              · exact absurd hcb.1 (by simp)
        | none =>
            simp only [extract_json_from_response, hp, hf]
            by_cases hc : pyFind '\x7b' s.toList ≠ -1 ∧ pyRfind '\x7d' s.toList ≠ -1
            · rw [if_pos hc]
              constructor
              · intro h
                exact ⟨trivial, Or.inr ⟨trivial, Or.inr (Or.inr h)⟩⟩
              · rintro ⟨-, hca | hcb⟩
                · obtain ⟨g2, hg2, -⟩ := hca
                  exact absurd hg2 (by simp)
                · rcases hcb.2 with h | h | h
                  · exact absurd h hc.1
                  · exact absurd h hc.2
                  · exact h
            · rw [if_neg hc]
              constructor
              · intro _
                refine ⟨trivial, Or.inr ⟨trivial, ?_⟩⟩
                by_cases hb : pyFind '\x7b' s.toList = -1
                · exact Or.inl hb
                · right
                  left
                  by_contra hk
                  exact hc ⟨hb, hk⟩
              · intro _
                trivial

/-- Witness for C10: a plain non-JSON string falls through every attempt
and yields `none`. -/
theorem C10_witness : extract_json_from_response "oops" = none := by
  apply (C10_fallback_extractor_total.2 "oops").mpr
  exact ⟨by rfl, Or.inr ⟨by rfl, Or.inl (by decide)⟩⟩

end AISC
